import Mathlib

/-!
Shallow embedding of the `wsdatautil` package (WebSocket framing layer).

Byte strings are modelled as `List Nat` with each element one byte.  The
Python classes `HeaderObj`, `CloseCode`, `Frame`, `FrameFactory` and the
free function `get_close_code_and_message_from_frame` are translated from
`src/wsdatautil/__init__.py`.  The C extension module `_wsframecoder`
(`parse`, `build`, `masking`, and the `StreamReader` class) ships only as
compiled code, so those operations are modelled from the design document:
sections 4.2 (Masking Engine), 4.3 (Frame Decoder), 4.4 (Frame Encoder)
and 4.5 (Progressive Stream Reader).
-/

namespace Wsdatautil

/-- Byte strings: lists of byte values. -/
abbrev Bytes := List Nat

/-- Modelled from the spec: the error taxonomy of the C module
`_wsframecoder` (absent from the sources), section 7 of the design
document.  All errors surface as Python `ValueError`s. -/
inductive WsError where
  | TruncatedHeader
  | MalformedExtendedLength
  | TruncatedPayload
  | LengthViolation
deriving DecidableEq, Repr

/-- Modelled from the spec: the cycled-key XOR loop of the Masking Engine,
output byte `i` is input byte `i` XOR key byte `i mod len(key)`; the first
argument threads the running byte index. -/
def maskingAux (key : Bytes) : Nat → Bytes → Bytes
  | _, [] => []
  | i, b :: rest => (b ^^^ key.getD (i % key.length) 0) :: maskingAux key (i + 1) rest

/-- Modelled from the spec: `mask(payload, key)` of the Masking Engine
(section 4.2). -/
def masking_transform (input key : Bytes) : Bytes :=
  maskingAux key 0 input

/-- Modelled from the spec: the exposed `_wsframecoder.masking` entry point.
A 4-byte key applies the transform; the empty key, which is how the Python
layer encodes an absent mask (`self.mask or b""`), leaves the payload
unchanged; any other key length fails with the length violation, as
exercised by the repository's exception tests with 3- and 5-byte keys. -/
def masking (payload key : Bytes) : Except WsError Bytes :=
  if key.length = 4 then .ok (masking_transform payload key)
  else if key = [] then .ok payload
  else .error .LengthViolation

/-- Modelled from the spec: the `w`-byte big-endian encoding of `n`
(faithful to `n` whenever `n < 256 ^ w`). -/
def toBE : Nat → Nat → Bytes
  | 0, _ => []
  | w + 1, n => toBE w (n / 256) ++ [n % 256]

/-- Modelled from the spec: the big-endian value of a byte list. -/
def fromBE (l : Bytes) : Nat :=
  l.foldl (fun a b => a * 256 + b) 0

/-- Modelled from the spec: the 7-bit length selector, bits 6-0 of buffer
byte 1 (section 4.3 step 3). -/
def selOf (buf : Bytes) : Nat :=
  buf.getD 1 0 % 128

/-- Modelled from the spec: the width of the extended length field selected
by the selector, 0, 2 or 8 bytes (section 4.3 step 4). -/
def extLenOf (buf : Bytes) : Nat :=
  if selOf buf ≤ 125 then 0 else if selOf buf = 126 then 2 else 8

/-- Modelled from the spec: the mask-present flag, bit 7 of buffer byte 1
(section 4.3 step 3). -/
def maskedOf (buf : Bytes) : Bool :=
  buf.getD 1 0 / 128 % 2 == 1

/-- Modelled from the spec: the number of mask key bytes in the header,
4 when the mask flag is set, otherwise 0 (section 4.3 step 5). -/
def maskLenOf (buf : Bytes) : Nat :=
  if maskedOf buf then 4 else 0

/-- Modelled from the spec: the declared payload amount, the selector
itself when at most 125, otherwise the big-endian extended field
(section 4.3 step 4). -/
def amountOf (buf : Bytes) : Nat :=
  if selOf buf ≤ 125 then selOf buf else fromBE ((buf.drop 2).take (extLenOf buf))

/-- Modelled from the spec: the total byte length of the frame declared by
the buffer's header: fixed header, extended length, mask key, payload. -/
def totalOf (buf : Bytes) : Nat :=
  2 + extLenOf buf + maskLenOf buf + amountOf buf

/-- Modelled from the spec: the ten components returned by
`_wsframecoder.parse` (unpacked by `Frame.from_streamdata`). -/
structure ParseResult where
  fin : Nat
  rsv1 : Nat
  rsv2 : Nat
  rsv3 : Nat
  opcode : Nat
  masked : Bool
  amount_spec : Nat
  amount : Nat
  mask : Bytes
  payload : Bytes
deriving DecidableEq, Repr

/-- Modelled from the spec: field extraction from a buffer that holds (at
least) one complete frame — section 4.3 steps 2 to 8.  Byte 0 carries fin
in bit 7, rsv1-3 in bits 6-4 and the opcode in bits 3-0; the key and the
payload are sliced behind the header; when the mask flag is set and
demasking was requested the Masking Engine recovers the plaintext. -/
def decodeComplete (buf : Bytes) (auto_demask : Bool) : ParseResult :=
  let b0 := buf.getD 0 0
  let mk := (buf.drop (2 + extLenOf buf)).take (maskLenOf buf)
  let raw := (buf.drop (2 + extLenOf buf + maskLenOf buf)).take (amountOf buf)
  { fin := b0 / 128 % 2
    rsv1 := b0 / 64 % 2
    rsv2 := b0 / 32 % 2
    rsv3 := b0 / 16 % 2
    opcode := b0 % 16
    masked := maskedOf buf
    amount_spec := selOf buf
    amount := amountOf buf
    mask := mk
    payload := if maskedOf buf && auto_demask then masking_transform raw mk else raw }

/-- Modelled from the spec: `_wsframecoder.parse`, the complete-buffer Frame
Decoder of section 4.3.  Fewer than 2 bytes is a truncated header; missing
extended-length bytes are a malformed extended length; a missing mask key is
a truncated header; missing payload bytes are a truncated payload. -/
def parse (data : Bytes) (auto_demask : Bool) : Except WsError ParseResult :=
  if data.length < 2 then .error .TruncatedHeader
  else if data.length < 2 + extLenOf data then .error .MalformedExtendedLength
  else if data.length < 2 + extLenOf data + maskLenOf data then .error .TruncatedHeader
  else if data.length < totalOf data then .error .TruncatedPayload
  else .ok (decodeComplete data auto_demask)

/-- Modelled from the spec: `_wsframecoder.build`, the Frame Encoder of
section 4.4.  Byte 0 packs fin, rsv1-3 and the opcode into the bit fields
`(fin<<7)|(rsv1<<6)|(rsv2<<5)|(rsv3<<4)|opcode`, written here as the sum of
the shifted fields, which coincides with the bit-or for in-range fields;
byte 1 packs the mask flag and the minimal length selector the same way.
The empty key means no mask — the Python layer passes `self.mask or b""` —
and a non-empty key must be exactly 4 bytes, else the length violation is
raised before any byte is emitted. -/
def build (fin rsv1 rsv2 rsv3 opcode : Nat) (mask payload : Bytes) :
    Except WsError Bytes :=
  if mask ≠ [] ∧ mask.length ≠ 4 then .error .LengthViolation
  else
    let amount := payload.length
    let b0 := fin * 128 + rsv1 * 64 + rsv2 * 32 + rsv3 * 16 + opcode
    let maskBit : Nat := if mask = [] then 0 else 1
    let sel := if amount ≤ 125 then amount else if amount ≤ 65535 then 126 else 127
    let ext := if amount ≤ 125 then ([] : Bytes)
               else if amount ≤ 65535 then toBE 2 amount else toBE 8 amount
    let body := if mask = [] then payload else masking_transform payload mask
    .ok (b0 :: (maskBit * 128 + sel) :: (ext ++ (mask ++ body)))

/-- Translation of the `Frame` named tuple of `wsdatautil/__init__.py`,
with its Python defaults; `amount_spec` and `amount` default to `None`. -/
structure Frame where
  payload : Bytes
  opcode : Nat := 1
  mask : Option Bytes := none
  fin : Nat := 1
  rsv1 : Nat := 0
  rsv2 : Nat := 0
  rsv3 : Nat := 0
  amount_spec : Option Nat := none
  amount : Option Nat := none
deriving DecidableEq, Repr

/-- Translation of the `self.mask or b""` argument passed by the Python
methods to the C module: `None` and the empty byte string both collapse to
the empty byte string. -/
def maskOrEmpty : Option Bytes → Bytes
  | none => []
  | some m => m

/-- Packaging of a parse result into a `Frame`, as done by
`Frame.from_streamdata`: the mask is attached only when the mask flag was
set, and the derived fields are populated. -/
def ParseResult.toFrame (r : ParseResult) : Frame :=
  { payload := r.payload
    opcode := r.opcode
    mask := if r.masked then some r.mask else none
    fin := r.fin
    rsv1 := r.rsv1
    rsv2 := r.rsv2
    rsv3 := r.rsv3
    amount_spec := some r.amount_spec
    amount := some r.amount }

namespace Frame

/-- Translation of `Frame.from_streamdata`. -/
def from_streamdata (data : Bytes) (auto_demask : Bool) : Except WsError Frame :=
  (parse data auto_demask).map ParseResult.toFrame

/-- Translation of `Frame.to_streamdata`. -/
def to_streamdata (f : Frame) : Except WsError Bytes :=
  build f.fin f.rsv1 f.rsv2 f.rsv3 f.opcode (maskOrEmpty f.mask) f.payload

/-- Translation of `Frame.masked_payload`. -/
def masked_payload (f : Frame) : Except WsError Bytes :=
  masking f.payload (maskOrEmpty f.mask)

end Frame

/-- Translation of `CloseCode.to_payload`: the two big-endian code bytes
(`int.to_bytes(2, "big")`, defined for codes 0..65535) followed by the
message verbatim. -/
def CloseCode.to_payload (code : Nat) (message : Bytes) : Bytes :=
  toBE 2 code ++ message

/-- Translation of `get_close_code_and_message_from_frame`: the big-endian
value of the first two payload bytes and the remaining payload. -/
def get_close_code_and_message_from_frame (frame : Frame) : Nat × Bytes :=
  (fromBE (frame.payload.take 2), frame.payload.drop 2)

/-- Translation of `FrameFactory.CloseFrame`: the close payload is built
from the code and the message truncated to 123 bytes, opcode CLOSE. -/
def FrameFactory.CloseFrame (close_code : Nat) (message : Bytes) : Frame :=
  { payload := CloseCode.to_payload close_code (message.take 123), opcode := 8 }

/-- Modelled from the spec: the tagged result of one progressive read,
`NeedMore n` or `Ready frame` (section 4.5). -/
inductive ReadResult where
  | NeedMore (n : Nat)
  | Ready (f : Frame)
deriving DecidableEq, Repr

/-- Modelled from the spec: the state of the `StreamReader` class of the C
module (absent from the sources), section 4.5: the exclusive accumulation
buffer plus the construction-time unmask option. -/
structure StreamReader where
  buffer : Bytes
  auto_demask : Bool
deriving DecidableEq, Repr

/-- Modelled from the spec: bytes still needed before the buffer holds one
complete frame, following the stages AwaitHeaderBytes(2),
AwaitExtendedLength(0|2|8), AwaitMaskKey(0|4), AwaitPayload(amount);
`none` once the frame is complete. -/
def needOf (buf : Bytes) : Option Nat :=
  if buf.length < 2 then some (2 - buf.length)
  else if buf.length < 2 + extLenOf buf then some (2 + extLenOf buf - buf.length)
  else if buf.length < 2 + extLenOf buf + maskLenOf buf then
    some (2 + extLenOf buf + maskLenOf buf - buf.length)
  else if buf.length < totalOf buf then some (totalOf buf - buf.length)
  else none

/-- Modelled from the spec: one call of `StreamReader.progressive_read` —
append the chunk to the buffer, report how many bytes the current stage
still needs, or emit the completed frame and retain any surplus bytes for
the next frame (section 4.5). -/
def progressive_read (sr : StreamReader) (chunk : Bytes) : ReadResult × StreamReader :=
  match needOf (sr.buffer ++ chunk) with
  | some n => (.NeedMore n, { buffer := sr.buffer ++ chunk, auto_demask := sr.auto_demask })
  | none =>
      (.Ready (ParseResult.toFrame (decodeComplete (sr.buffer ++ chunk) sr.auto_demask)),
       { buffer := (sr.buffer ++ chunk).drop (totalOf (sr.buffer ++ chunk)),
         auto_demask := sr.auto_demask })

/-- Sequential driving of a Progressive Stream Reader over a list of
chunks, returning the final call's result with the final reader state. -/
def feedChunks (sr : StreamReader) : List Bytes → ReadResult × StreamReader
  | [] => (.NeedMore 2, sr)
  | [c] => progressive_read sr c
  | c :: c2 :: rest => feedChunks (progressive_read sr c).2 (c2 :: rest)

/-- Structural frame validity of a byte sequence: the buffer holds exactly
one complete wire frame, no byte missing and no surplus byte. -/
def IsExactFrame (data : Bytes) : Prop :=
  needOf data = none ∧ totalOf data = data.length

/-- Translation of `bytes.split(sep)` for a two-byte separator `[a, b]`
(`HeaderObj.from_streamdata` splits on `b"\r\n"` and `b": "`): the chunk up
to the first separator occurrence, plus the chunks behind it, scanning left
to right without overlap. -/
def splitSepCore (a b : Nat) : Bytes → Bytes × List Bytes
  | [] => ([], [])
  | [x] => ([x], [])
  | x :: y :: rest =>
      if x = a ∧ y = b then
        ([], (splitSepCore a b rest).1 :: (splitSepCore a b rest).2)
      else
        (x :: (splitSepCore a b (y :: rest)).1, (splitSepCore a b (y :: rest)).2)

/-- Translation of `bytes.split(sep)` for a two-byte separator: the full
(never empty) list of chunks. -/
def splitSep (a b : Nat) (l : Bytes) : List Bytes :=
  (splitSepCore a b l).1 :: (splitSepCore a b l).2

/-- Translation of the ASCII whitespace class stripped by `bytes.strip`. -/
def isSpaceByte (b : Nat) : Bool :=
  b == 9 || b == 10 || b == 11 || b == 12 || b == 13 || b == 32

/-- Translation of `bytes.strip()`: drop ASCII whitespace from both ends. -/
def stripBytes (l : Bytes) : Bytes :=
  ((l.dropWhile isSpaceByte).reverse.dropWhile isSpaceByte).reverse

/-- Translation of `sep.join(parts)` for byte strings. -/
def joinSep (sep : Bytes) : List Bytes → Bytes
  | [] => []
  | [x] => x
  | x :: y :: rest => x ++ sep ++ joinSep sep (y :: rest)

/-- Translation of `HeaderObj`: the first line `l1` plus the ordered
name-to-value byte-string mapping (an `OrderedDict`, so keys are unique
and keep insertion order). -/
structure HeaderObj where
  l1 : Bytes
  items : List (Bytes × Bytes)
deriving DecidableEq, Repr

/-- Translation of ordered-dict assignment `new[k] = v`: overwrite the
value in place when the key exists, append the pair otherwise. -/
def setItem (items : List (Bytes × Bytes)) (k v : Bytes) : List (Bytes × Bytes) :=
  if items.any (fun p => p.1 = k) then
    items.map (fun p => if p.1 = k then (k, v) else p)
  else items ++ [(k, v)]

/-- Translation of the loop body of `HeaderObj.from_streamdata`:
`k, v = line.split(b": ")` — the unpacking raises unless the split gives
exactly two parts, modelled as the error case — then the assignment
`new[k.strip()] = v`. -/
def parseHeaderLine (acc : List (Bytes × Bytes)) (line : Bytes) :
    Except Unit (List (Bytes × Bytes)) :=
  match splitSep 58 32 line with
  | [k, v] => Except.ok (setItem acc (stripBytes k) v)
  | _ => Except.error ()

namespace HeaderObj

/-- Translation of `HeaderObj.to_streamdata`: first line, CRLF, the
`Name: value` lines joined by CRLF, then the closing CRLF CRLF. -/
def to_streamdata (h : HeaderObj) : Bytes :=
  h.l1 ++ [13, 10] ++ joinSep [13, 10] (h.items.map fun p => p.1 ++ [58, 32] ++ p.2)
    ++ [13, 10, 13, 10]

/-- Translation of `HeaderObj.from_streamdata`: strip the block, split on
CRLF, take the first line, then fold `parseHeaderLine` over the remaining
lines. -/
def from_streamdata (data : Bytes) : Except Unit HeaderObj :=
  match splitSep 13 10 (stripBytes data) with
  | [] => .error ()
  | l1 :: rest => do
      let items ← rest.foldlM parseHeaderLine []
      .ok { l1 := l1, items := items }

end HeaderObj

/-! Auxiliary lemmas about the Masking Engine. -/

theorem maskingAux_length (key : Bytes) (i : Nat) (l : Bytes) :
    (maskingAux key i l).length = l.length := by
  induction l generalizing i with
  | nil => rfl
  | cons b rest ih => simp [maskingAux, ih]

theorem maskingAux_involutive (key : Bytes) (i : Nat) (l : Bytes) :
    maskingAux key i (maskingAux key i l) = l := by
  induction l generalizing i with
  | nil => rfl
  | cons b rest ih =>
      simp only [maskingAux, Nat.xor_cancel_right]
      exact congrArg _ (ih (i + 1))

theorem masking_transform_length (input key : Bytes) :
    (masking_transform input key).length = input.length :=
  maskingAux_length key 0 input

theorem masking_transform_involutive (input key : Bytes) :
    masking_transform (masking_transform input key) key = input :=
  maskingAux_involutive key 0 input

/-- C3: for every payload `P` and every 4-byte key `K`, applying the
masking transform twice with the same key restores the original bytes:
the masking operation succeeds on `P`, and applying it again to its output
returns `P`. -/
theorem masking_involution (p k : Bytes) (hk : k.length = 4) :
    ∃ q, masking p k = .ok q ∧ masking q k = .ok p := by
  refine ⟨masking_transform p k, ?_, ?_⟩
  · simp [masking, hk]
  · simp [masking, hk, masking_transform_involutive]

/-- Witness for C3 at payload `[1, 2, 3]` and key `[5, 6, 7, 8]`. -/
theorem masking_involution_witness :
    ([5, 6, 7, 8] : Bytes).length = 4 ∧
      ∃ q, masking [1, 2, 3] [5, 6, 7, 8] = .ok q ∧
        masking q [5, 6, 7, 8] = .ok [1, 2, 3] :=
  ⟨by decide, masking_involution [1, 2, 3] [5, 6, 7, 8] (by decide)⟩

/-- C7: every input shorter than 2 bytes makes the one-shot decoder
`Frame.from_streamdata` fail with `TruncatedHeader`; no frame is
returned. -/
theorem short_input_truncated_header (data : Bytes) (auto_demask : Bool)
    (h : data.length < 2) :
    Frame.from_streamdata data auto_demask = .error .TruncatedHeader := by
  unfold Frame.from_streamdata parse
  rw [if_pos h]
  rfl

/-- Witness for C7 at the one-byte input `[5]`. -/
theorem short_input_truncated_header_witness :
    ([5] : Bytes).length < 2 ∧
      Frame.from_streamdata [5] true = .error .TruncatedHeader :=
  ⟨by decide, short_input_truncated_header [5] true (by decide)⟩

/-- C9: a `Frame` whose mask is the empty byte string encodes through
`to_streamdata` to exactly the bytes of the same frame with an absent
mask, and the encoding succeeds rather than raising an error: the Python
method passes `self.mask or b""`, which collapses both to the empty key. -/
theorem empty_mask_equals_absent (p : Bytes) (op fin r1 r2 r3 : Nat)
    (as am : Option Nat) :
    Frame.to_streamdata ⟨p, op, some [], fin, r1, r2, r3, as, am⟩ =
        Frame.to_streamdata ⟨p, op, none, fin, r1, r2, r3, as, am⟩ ∧
      ∃ B, Frame.to_streamdata ⟨p, op, some [], fin, r1, r2, r3, as, am⟩ = .ok B := by
  constructor
  · rfl
  · unfold Frame.to_streamdata build
    rw [if_neg (by simp [maskOrEmpty])]
    exact ⟨_, rfl⟩

/-- C6 counterexample: `CloseCode.to_payload` does not truncate the
reason.  At code 1000 with a 124-byte reason the returned payload has 126
bytes, exceeding the claimed 125-byte cap, and differs from the claimed
code-bytes-plus-truncated-reason value. -/
theorem close_payload_overlong :
    (CloseCode.to_payload 1000 (List.replicate 124 0)).length = 126 ∧
      CloseCode.to_payload 1000 (List.replicate 124 0) ≠
        toBE 2 1000 ++ (List.replicate 124 0).take 123 := by
  constructor
  · norm_num [CloseCode.to_payload, toBE]
  · intro h
    have hl := congrArg List.length h
    norm_num [CloseCode.to_payload, toBE, List.length_take] at hl

/-- C6 amended: `CloseCode.to_payload` returns the two big-endian code
bytes followed by the reason unmodified; the 125-byte cap holds for
factory-built close frames, because `FrameFactory.CloseFrame` truncates
the reason to 123 bytes before calling `to_payload`. -/
theorem close_payload_amended (c : Nat) (R : Bytes) (hc : c < 65536) :
    CloseCode.to_payload c R = [c / 256, c % 256] ++ R ∧
      (FrameFactory.CloseFrame c R).payload.length ≤ 125 := by
  have hdiv : c / 256 % 256 = c / 256 := Nat.mod_eq_of_lt (by omega)
  constructor
  · simp [CloseCode.to_payload, toBE, hdiv]
  · simp only [FrameFactory.CloseFrame, CloseCode.to_payload]
    simp [toBE, List.length_take]

/-- Witness for C6 (amended) at code 1000 and reason `[1, 2, 3]`. -/
theorem close_payload_amended_witness :
    1000 < 65536 ∧
      (CloseCode.to_payload 1000 [1, 2, 3] = [3, 232] ++ [1, 2, 3] ∧
        (FrameFactory.CloseFrame 1000 [1, 2, 3]).payload.length ≤ 125) :=
  ⟨by decide, close_payload_amended 1000 [1, 2, 3] (by decide)⟩

/-- C10: extracting code and message from a factory-built close frame
returns the code and the reason truncated to 123 bytes; the extraction is
total, and on any frame with an empty payload it returns code 0 and an
empty message. -/
theorem close_extract_roundtrip (c : Nat) (m : Bytes) (hc : c ≤ 65535) :
    get_close_code_and_message_from_frame (FrameFactory.CloseFrame c m) =
        (c, m.take 123) ∧
      ∀ f : Frame, f.payload = [] →
        get_close_code_and_message_from_frame f = (0, []) := by
  constructor
  · have hdiv : c / 256 % 256 = c / 256 := Nat.mod_eq_of_lt (by omega)
    simp only [get_close_code_and_message_from_frame, FrameFactory.CloseFrame,
      CloseCode.to_payload, toBE]
    simp [fromBE, hdiv]
    omega
  · intro f hf
    simp [get_close_code_and_message_from_frame, hf, fromBE]

/-- Witness for C10 at code 1005 and message `[65, 66]`. -/
theorem close_extract_roundtrip_witness :
    1005 ≤ 65535 ∧
      get_close_code_and_message_from_frame (FrameFactory.CloseFrame 1005 [65, 66]) =
        (1005, ([65, 66] : Bytes).take 123) :=
  ⟨by decide, (close_extract_roundtrip 1005 [65, 66] (by decide)).1⟩

/-! Auxiliary lemmas for the Progressive Stream Reader: the header
accessors agree between a buffer and any sufficiently long prefix, so a
proper prefix of an exact frame is always incomplete. -/

theorem getD_take (l : Bytes) (k i : Nat) (h : i < k) :
    (l.take k).getD i 0 = l.getD i 0 := by
  rw [List.getD_eq_getElem?_getD, List.getD_eq_getElem?_getD,
    List.getElem?_take_of_lt h]

theorem selOf_take (l : Bytes) (k : Nat) (h : 2 ≤ k) :
    selOf (l.take k) = selOf l := by
  unfold selOf
  rw [getD_take l k 1 (by omega)]

theorem maskedOf_take (l : Bytes) (k : Nat) (h : 2 ≤ k) :
    maskedOf (l.take k) = maskedOf l := by
  unfold maskedOf
  rw [getD_take l k 1 (by omega)]

theorem extLenOf_take (l : Bytes) (k : Nat) (h : 2 ≤ k) :
    extLenOf (l.take k) = extLenOf l := by
  unfold extLenOf
  rw [selOf_take l k h]

theorem maskLenOf_take (l : Bytes) (k : Nat) (h : 2 ≤ k) :
    maskLenOf (l.take k) = maskLenOf l := by
  unfold maskLenOf
  rw [maskedOf_take l k h]

theorem amountOf_take (l : Bytes) (k : Nat) (h : 2 + extLenOf l ≤ k) :
    amountOf (l.take k) = amountOf l := by
  have h2 : 2 ≤ k := by omega
  unfold amountOf
  rw [selOf_take l k h2, extLenOf_take l k h2]
  by_cases hs : selOf l ≤ 125
  · rw [if_pos hs, if_pos hs]
  · rw [if_neg hs, if_neg hs, List.drop_take, List.take_take,
      Nat.min_eq_left (by omega : extLenOf l ≤ k - 2)]

theorem totalOf_take (l : Bytes) (k : Nat) (h : 2 + extLenOf l ≤ k) :
    totalOf (l.take k) = totalOf l := by
  have h2 : 2 ≤ k := by omega
  unfold totalOf
  rw [extLenOf_take l k h2, maskLenOf_take l k h2, amountOf_take l k h]

/-- Every proper prefix of an exact frame still needs bytes. -/
theorem needOf_prefix_some (B : Bytes) (k : Nat) (hexact : IsExactFrame B)
    (hk : k < B.length) : ∃ n, needOf (B.take k) = some n := by
  have hlen : (B.take k).length = k := by
    simp [List.length_take]
    omega
  unfold needOf
  rw [hlen]
  by_cases hk2 : k < 2
  · rw [if_pos hk2]
    exact ⟨_, rfl⟩
  · have h2 : 2 ≤ k := by omega
    rw [if_neg hk2, extLenOf_take B k h2, maskLenOf_take B k h2]
    by_cases hk3 : k < 2 + extLenOf B
    · rw [if_pos hk3]
      exact ⟨_, rfl⟩
    · rw [if_neg hk3, totalOf_take B k (by omega)]
      by_cases hk4 : k < 2 + extLenOf B + maskLenOf B
      · rw [if_pos hk4]
        exact ⟨_, rfl⟩
      · rw [if_neg hk4, if_pos (by rw [hexact.2]; exact hk)]
        exact ⟨_, rfl⟩

theorem progressive_read_needMore (sr : StreamReader) (chunk : Bytes) (n : Nat)
    (h : needOf (sr.buffer ++ chunk) = some n) :
    progressive_read sr chunk =
      (.NeedMore n, ⟨sr.buffer ++ chunk, sr.auto_demask⟩) := by
  unfold progressive_read
  rw [h]

theorem progressive_read_ready (sr : StreamReader) (chunk : Bytes)
    (h : needOf (sr.buffer ++ chunk) = none) :
    progressive_read sr chunk =
      (.Ready (ParseResult.toFrame
          (decodeComplete (sr.buffer ++ chunk) sr.auto_demask)),
       ⟨(sr.buffer ++ chunk).drop (totalOf (sr.buffer ++ chunk)),
        sr.auto_demask⟩) := by
  unfold progressive_read
  rw [h]

/-- One-shot decoding succeeds on every complete buffer. -/
theorem parse_of_complete (B : Bytes) (auto_demask : Bool)
    (h : needOf B = none) :
    parse B auto_demask = .ok (decodeComplete B auto_demask) := by
  unfold parse
  unfold needOf at h
  split_ifs at h with h1 h2 h3 h4
  all_goals try simp at h
  rw [if_neg h1, if_neg h2, if_neg h3, if_neg h4]

/-- Feeding the chunks of an exact frame to a reader that already holds a
proper prefix of it ends with the frame emitted and an empty buffer. -/
theorem feedChunks_prefix (auto_demask : Bool) (B : Bytes)
    (hexact : IsExactFrame B) :
    ∀ cs : List Bytes, cs ≠ [] → (∀ c ∈ cs, c ≠ []) → ∀ p : Bytes,
      p ++ cs.flatten = B →
      feedChunks ⟨p, auto_demask⟩ cs =
        (.Ready (ParseResult.toFrame (decodeComplete B auto_demask)),
         ⟨[], auto_demask⟩) := by
  intro cs
  induction cs with
  | nil => intro h; exact absurd rfl h
  | cons c rest ih =>
      intro _ hne p hjoin
      cases rest with
      | nil =>
          have hbuf : p ++ c = B := by simpa using hjoin
          show progressive_read ⟨p, auto_demask⟩ c = _
          have hneed : needOf ((⟨p, auto_demask⟩ : StreamReader).buffer ++ c)
              = none := by
            show needOf (p ++ c) = none
            rw [hbuf]
            exact hexact.1
          have hstep := progressive_read_ready ⟨p, auto_demask⟩ c hneed
          rw [show (⟨p, auto_demask⟩ : StreamReader).buffer ++ c = B from hbuf,
            hexact.2, List.drop_length] at hstep
          exact hstep
      | cons c2 rest2 =>
          have hjoin2 : (p ++ c) ++ (c2 :: rest2).flatten = B := by
            rw [← hjoin]
            simp [List.flatten_cons]
          have hlt : (p ++ c).length < B.length := by
            have hc2 : c2 ≠ [] := hne c2 (by simp)
            have hpos : 1 ≤ (c2 :: rest2).flatten.length := by
              cases c2 with
              | nil => exact absurd rfl hc2
              | cons d t => simp [List.flatten_cons]
            calc (p ++ c).length
                < (p ++ c).length + (c2 :: rest2).flatten.length := by omega
              _ = B.length := by
                  rw [← hjoin2]
                  simp
                  omega
          have htake : B.take (p ++ c).length = p ++ c := by
            rw [← hjoin2, List.take_left]
          obtain ⟨n, hn⟩ := needOf_prefix_some B (p ++ c).length hexact hlt
          rw [htake] at hn
          have hstep := progressive_read_needMore ⟨p, auto_demask⟩ c n hn
          show feedChunks (progressive_read ⟨p, auto_demask⟩ c).2 (c2 :: rest2) = _
          rw [hstep]
          exact ih (by simp) (fun x hx => hne x (by simp [hx])) (p ++ c) hjoin2

/-- C2: for every byte sequence holding exactly one complete wire frame
and every partition of it into non-empty consecutive chunks, feeding the
chunks sequentially to a fresh Progressive Stream Reader emits the same
frame as one-shot decoding, independent of the number of chunks and of the
split points, and leaves the reader's buffer empty. -/
theorem streamreader_chunk_invariance (B : Bytes) (cs : List Bytes)
    (auto_demask : Bool) (hexact : IsExactFrame B) (hcs : cs ≠ [])
    (hne : ∀ c ∈ cs, c ≠ []) (hjoin : cs.flatten = B) :
    ∃ F, Frame.from_streamdata B auto_demask = .ok F ∧
      feedChunks ⟨[], auto_demask⟩ cs = (.Ready F, ⟨[], auto_demask⟩) := by
  refine ⟨ParseResult.toFrame (decodeComplete B auto_demask), ?_, ?_⟩
  · unfold Frame.from_streamdata
    rw [parse_of_complete B auto_demask hexact.1]
    rfl
  · exact feedChunks_prefix auto_demask B hexact cs hcs hne [] (by simpa using hjoin)

/-- Witness for C2: the frame bytes `[129, 2, 72, 73]` fed one byte at a
time. -/
theorem streamreader_chunk_invariance_witness :
    IsExactFrame [129, 2, 72, 73] ∧
      ∃ F, Frame.from_streamdata [129, 2, 72, 73] true = .ok F ∧
        feedChunks ⟨[], true⟩ [[129], [2], [72], [73]] =
          (.Ready F, ⟨[], true⟩) :=
  ⟨⟨by decide, by decide⟩,
    streamreader_chunk_invariance [129, 2, 72, 73] [[129], [2], [72], [73]] true
      ⟨by decide, by decide⟩ (by decide) (by decide) (by decide)⟩

/-! Auxiliary lemmas about big-endian fields and the encoder's output. -/

theorem toBE_length (w n : Nat) : (toBE w n).length = w := by
  induction w generalizing n with
  | zero => rfl
  | succ w ih => simp [toBE, ih]

theorem fromBE_append_one (l : Bytes) (x : Nat) :
    fromBE (l ++ [x]) = fromBE l * 256 + x := by
  simp [fromBE]

theorem fromBE_toBE (w n : Nat) (h : n < 256 ^ w) : fromBE (toBE w n) = n := by
  induction w generalizing n with
  | zero =>
      simp only [toBE, fromBE, List.foldl_nil]
      simp only [pow_zero] at h
      omega
  | succ w ih =>
      have hdiv : n / 256 < 256 ^ w := by
        rw [Nat.div_lt_iff_lt_mul (by norm_num)]
        calc n < 256 ^ (w + 1) := h
          _ = 256 ^ w * 256 := by ring
      rw [toBE, fromBE_append_one, ih (n / 256) hdiv]
      omega

theorem drop_two_cons (a b : Nat) (t : Bytes) (n : Nat) :
    (a :: b :: t).drop (2 + n) = t.drop n := by
  rw [Nat.add_comm]
  rfl

/-- Explicit shape of the encoder's output for a valid mask. -/
theorem build_eq (fin rsv1 rsv2 rsv3 opcode : Nat) (mask payload : Bytes)
    (h : mask = [] ∨ mask.length = 4) :
    build fin rsv1 rsv2 rsv3 opcode mask payload =
      .ok ((fin * 128 + rsv1 * 64 + rsv2 * 32 + rsv3 * 16 + opcode) ::
        ((if mask = [] then 0 else 1) * 128 +
          (if payload.length ≤ 125 then payload.length
           else if payload.length ≤ 65535 then 126 else 127)) ::
        ((if payload.length ≤ 125 then ([] : Bytes)
          else if payload.length ≤ 65535 then toBE 2 payload.length
          else toBE 8 payload.length) ++
         (mask ++ (if mask = [] then payload
                   else masking_transform payload mask)))) := by
  unfold build
  rcases h with h | h
  · rw [if_neg (by simp [h])]
  · rw [if_neg (by simp [h])]

/-- Decoding a byte sequence of the wire shape header, extension, key,
body recovers every field.  The hypotheses tie the extension width to the
selector, the key width to the mask bit, and the declared amount to the
body length, exactly as the encoder produces them. -/
theorem parse_exact (fin rsv1 rsv2 rsv3 opcode maskBit sel : Nat)
    (ext key body : Bytes) (auto_demask : Bool)
    (hf : fin ≤ 1) (h1 : rsv1 ≤ 1) (h2 : rsv2 ≤ 1) (h3 : rsv3 ≤ 1)
    (hop : opcode < 16) (hmb : maskBit ≤ 1) (hsel : sel ≤ 127)
    (hext : ext.length = (if sel ≤ 125 then 0 else if sel = 126 then 2 else 8))
    (hkey : key.length = (if maskBit = 1 then 4 else 0))
    (hamt : (if sel ≤ 125 then sel else fromBE ext) = body.length) :
    parse ((fin * 128 + rsv1 * 64 + rsv2 * 32 + rsv3 * 16 + opcode) ::
        (maskBit * 128 + sel) :: (ext ++ (key ++ body))) auto_demask =
      .ok { fin := fin, rsv1 := rsv1, rsv2 := rsv2, rsv3 := rsv3,
            opcode := opcode, masked := maskBit == 1, amount_spec := sel,
            amount := body.length, mask := key,
            payload := if maskBit == 1 && auto_demask then
                masking_transform body key else body } := by
  set b0 := fin * 128 + rsv1 * 64 + rsv2 * 32 + rsv3 * 16 + opcode with hb0
  set b1 := maskBit * 128 + sel with hb1
  set B := b0 :: b1 :: (ext ++ (key ++ body)) with hB
  have hgd1 : B.getD 1 0 = b1 := rfl
  have hgd0 : B.getD 0 0 = b0 := rfl
  have hselB : selOf B = sel := by
    unfold selOf
    rw [hgd1, hb1]
    omega
  have hmaskedB : maskedOf B = (maskBit == 1) := by
    unfold maskedOf
    rw [hgd1, hb1]
    have : (maskBit * 128 + sel) / 128 % 2 = maskBit := by omega
    rw [this]
  have hextB : extLenOf B = ext.length := by
    unfold extLenOf
    rw [hselB]
    exact hext.symm
  have hmlB : maskLenOf B = key.length := by
    unfold maskLenOf
    rw [hmaskedB, hkey]
    by_cases h : maskBit = 1 <;> simp [h]
  have hdrop2 : B.drop 2 = ext ++ (key ++ body) := rfl
  have hamtB : amountOf B = body.length := by
    unfold amountOf
    rw [hselB, hextB, hdrop2]
    by_cases hs : sel ≤ 125
    · rw [if_pos hs]
      rw [if_pos hs] at hamt
      exact hamt
    · rw [if_neg hs]
      rw [if_neg hs] at hamt
      rw [List.take_left]
      exact hamt
  have hlenB : B.length = 2 + (ext.length + (key.length + body.length)) := by
    simp [hB]
    omega
  have htotB : totalOf B = 2 + ext.length + key.length + body.length := by
    unfold totalOf
    rw [hextB, hmlB, hamtB]
  have hmaskSlice : (B.drop (2 + extLenOf B)).take (maskLenOf B) = key := by
    rw [hextB, hmlB, hB, drop_two_cons, List.drop_left, List.take_left]
  have hraw : (B.drop (2 + extLenOf B + maskLenOf B)).take (amountOf B) = body := by
    rw [hextB, hmlB, hamtB, hB, Nat.add_assoc, drop_two_cons,
      ← List.drop_drop, List.drop_left, List.drop_left, List.take_length]
  unfold parse
  rw [if_neg (by omega), if_neg (by rw [hextB]; omega),
    if_neg (by rw [hextB, hmlB]; omega), if_neg (by rw [htotB]; omega)]
  simp only [decodeComplete, Except.ok.injEq, ParseResult.mk.injEq]
  refine ⟨?_, ?_, ?_, ?_, ?_, hmaskedB, hselB, hamtB, hmaskSlice, ?_⟩
  · rw [hgd0]
    omega
  · rw [hgd0]
    omega
  · rw [hgd0]
    omega
  · rw [hgd0]
    omega
  · rw [hgd0]
    omega
  · rw [hmaskSlice, hraw, hmaskedB]

/-- Facts about the minimal length selector and extension chosen by the
encoder for a payload of length `A`: the selector stays in 7 bits, the
extension width matches the selector, and selector plus extension encode
exactly `A`. -/
theorem minsel_facts (A : Nat) (hA : A < 2 ^ 63) :
    (if A ≤ 125 then A else if A ≤ 65535 then 126 else 127) ≤ 127 ∧
      (if A ≤ 125 then ([] : Bytes)
        else if A ≤ 65535 then toBE 2 A else toBE 8 A).length =
        (if (if A ≤ 125 then A else if A ≤ 65535 then 126 else 127) ≤ 125 then 0
         else if (if A ≤ 125 then A else if A ≤ 65535 then 126 else 127) = 126
         then 2 else 8) ∧
      (if (if A ≤ 125 then A else if A ≤ 65535 then 126 else 127) ≤ 125
       then (if A ≤ 125 then A else if A ≤ 65535 then 126 else 127)
       else fromBE (if A ≤ 125 then ([] : Bytes)
         else if A ≤ 65535 then toBE 2 A else toBE 8 A)) = A := by
  have hA64 : A < 18446744073709551616 := by
    have h63 : (2 : Nat) ^ 63 = 9223372036854775808 := by norm_num
    omega
  by_cases hA1 : A ≤ 125
  · refine ⟨?_, ?_, ?_⟩
    · rw [if_pos hA1]
      omega
    · simp [hA1]
    · simp [hA1]
  · by_cases hA2 : A ≤ 65535
    · refine ⟨?_, ?_, ?_⟩
      · simp [hA1, hA2]
      · simp [hA1, hA2, toBE_length]
      · simp only [if_neg hA1, if_pos hA2]
        rw [if_neg (by omega)]
        exact fromBE_toBE 2 A (by norm_num; omega)
    · refine ⟨?_, ?_, ?_⟩
      · simp [hA1, hA2]
      · simp [hA1, hA2, toBE_length]
      · simp only [if_neg hA1, if_neg hA2]
        rw [if_neg (by omega)]
        exact fromBE_toBE 8 A (by norm_num; omega)

/-- C1: for every valid frame — mask absent or exactly 4 bytes, opcode in
4 bits, fin and rsv1-3 single bits, payload within the spec's length range
— encoding succeeds, and decoding the encoded bytes (with the automatic
demasking the call `Frame.from_streamdata(F.to_streamdata())` requests)
returns a frame with the same payload, opcode, fin and rsv1-3; the mask
key is preserved, and the returned payload is the plaintext payload. -/
theorem frame_roundtrip (F : Frame)
    (hmask : F.mask = none ∨ ∃ m, F.mask = some m ∧ m.length = 4)
    (hop : F.opcode < 16) (hf : F.fin ≤ 1) (h1 : F.rsv1 ≤ 1)
    (h2 : F.rsv2 ≤ 1) (h3 : F.rsv3 ≤ 1) (hlen : F.payload.length < 2 ^ 63) :
    ∃ B G, F.to_streamdata = .ok B ∧ Frame.from_streamdata B true = .ok G ∧
      G.payload = F.payload ∧ G.opcode = F.opcode ∧ G.fin = F.fin ∧
      G.rsv1 = F.rsv1 ∧ G.rsv2 = F.rsv2 ∧ G.rsv3 = F.rsv3 ∧
      G.mask = F.mask := by
  obtain ⟨hsel, hext, hamt⟩ := minsel_facts F.payload.length hlen
  rcases hmask with hm | ⟨m, hm, hmlen⟩
  · have hme : maskOrEmpty F.mask = [] := by rw [hm]; rfl
    have hb := build_eq F.fin F.rsv1 F.rsv2 F.rsv3 F.opcode [] F.payload (Or.inl rfl)
    simp only [reduceIte] at hb
    have hp := parse_exact F.fin F.rsv1 F.rsv2 F.rsv3 F.opcode 0
        (if F.payload.length ≤ 125 then F.payload.length
         else if F.payload.length ≤ 65535 then 126 else 127)
        (if F.payload.length ≤ 125 then ([] : Bytes)
         else if F.payload.length ≤ 65535 then toBE 2 F.payload.length
         else toBE 8 F.payload.length)
        [] F.payload true hf h1 h2 h3 hop (by omega) hsel hext (by simp) hamt
    unfold Frame.to_streamdata Frame.from_streamdata
    rw [hme, hb]
    refine ⟨_, ParseResult.toFrame
        { fin := F.fin, rsv1 := F.rsv1, rsv2 := F.rsv2, rsv3 := F.rsv3,
          opcode := F.opcode, masked := (0 == 1),
          amount_spec := (if F.payload.length ≤ 125 then F.payload.length
            else if F.payload.length ≤ 65535 then 126 else 127),
          amount := F.payload.length, mask := [], payload := F.payload },
        rfl, ?_, rfl, rfl, rfl, rfl, rfl, rfl, ?_⟩
    · rw [hp]
      rfl
    · rw [hm]
      rfl
  · have hmne : m ≠ [] := by
      intro h
      rw [h] at hmlen
      simp at hmlen
    have hme : maskOrEmpty F.mask = m := by rw [hm]; rfl
    have hb := build_eq F.fin F.rsv1 F.rsv2 F.rsv3 F.opcode m F.payload (Or.inr hmlen)
    rw [if_neg hmne, if_neg hmne] at hb
    have hp := parse_exact F.fin F.rsv1 F.rsv2 F.rsv3 F.opcode 1
        (if F.payload.length ≤ 125 then F.payload.length
         else if F.payload.length ≤ 65535 then 126 else 127)
        (if F.payload.length ≤ 125 then ([] : Bytes)
         else if F.payload.length ≤ 65535 then toBE 2 F.payload.length
         else toBE 8 F.payload.length)
        m (masking_transform F.payload m) true hf h1 h2 h3 hop (by omega) hsel hext
        (by simp [hmlen])
        (by rw [masking_transform_length]; exact hamt)
    unfold Frame.to_streamdata Frame.from_streamdata
    rw [hme, hb]
    refine ⟨_, ParseResult.toFrame
        { fin := F.fin, rsv1 := F.rsv1, rsv2 := F.rsv2, rsv3 := F.rsv3,
          opcode := F.opcode, masked := (1 == 1),
          amount_spec := (if F.payload.length ≤ 125 then F.payload.length
            else if F.payload.length ≤ 65535 then 126 else 127),
          amount := (masking_transform F.payload m).length, mask := m,
          payload := masking_transform (masking_transform F.payload m) m },
        rfl, ?_, ?_, rfl, rfl, rfl, rfl, rfl, ?_⟩
    · rw [hp]
      rfl
    · exact masking_transform_involutive F.payload m
    · rw [hm]
      rfl

/-- Witness for C1 at an opcode-2 frame with payload `[1, 2, 3]` and mask
key `[5, 6, 7, 8]`. -/
theorem frame_roundtrip_witness :
    (({ payload := [1, 2, 3], opcode := 2, mask := some [5, 6, 7, 8] } : Frame).mask = none ∨
        ∃ m, ({ payload := [1, 2, 3], opcode := 2, mask := some [5, 6, 7, 8] } : Frame).mask = some m ∧ m.length = 4) ∧
      ∃ B G, ({ payload := [1, 2, 3], opcode := 2, mask := some [5, 6, 7, 8] } : Frame).to_streamdata = .ok B ∧
        Frame.from_streamdata B true = .ok G ∧
        G.payload = [1, 2, 3] ∧ G.opcode = 2 ∧ G.fin = 1 ∧
        G.rsv1 = 0 ∧ G.rsv2 = 0 ∧ G.rsv3 = 0 ∧ G.mask = some [5, 6, 7, 8] :=
  ⟨Or.inr ⟨[5, 6, 7, 8], rfl, by decide⟩,
    frame_roundtrip { payload := [1, 2, 3], opcode := 2, mask := some [5, 6, 7, 8] }
      (Or.inr ⟨[5, 6, 7, 8], rfl, by decide⟩) (by decide) (by decide) (by decide)
      (by decide) (by decide) (by norm_num)⟩

/-- C4: encoding selects the minimal length representation.  For every
frame with a valid mask and payload length `L` within the spec's range,
encoding succeeds and the emitted bytes satisfy: `L ≤ 125` puts `L` itself
in the 7-bit selector with no extension bytes (the frame is exactly header
plus key plus payload); `126 ≤ L ≤ 65535` puts 126 in the selector
followed by a 2-byte big-endian extension equal to `L`; `L > 65535` puts
127 in the selector followed by an 8-byte big-endian extension equal to
`L`. -/
theorem encoder_minimal_length (F : Frame)
    (hmask : F.mask = none ∨ ∃ m, F.mask = some m ∧ m.length = 4)
    (hlen : F.payload.length < 2 ^ 63) :
    ∃ B, F.to_streamdata = .ok B ∧
      (F.payload.length ≤ 125 →
          B.getD 1 0 % 128 = F.payload.length ∧
          B.length = 2 + (maskOrEmpty F.mask).length + F.payload.length) ∧
      (126 ≤ F.payload.length → F.payload.length ≤ 65535 →
          B.getD 1 0 % 128 = 126 ∧
          fromBE ((B.drop 2).take 2) = F.payload.length ∧
          B.length = 4 + (maskOrEmpty F.mask).length + F.payload.length) ∧
      (65535 < F.payload.length →
          B.getD 1 0 % 128 = 127 ∧
          fromBE ((B.drop 2).take 8) = F.payload.length ∧
          B.length = 10 + (maskOrEmpty F.mask).length + F.payload.length) := by
  have hA64 : F.payload.length < 18446744073709551616 := by
    have h63 : (2 : Nat) ^ 63 = 9223372036854775808 := by norm_num
    omega
  rcases hmask with hm | ⟨m, hm, hmlen⟩
  · have hme : maskOrEmpty F.mask = [] := by rw [hm]; rfl
    have hb := build_eq F.fin F.rsv1 F.rsv2 F.rsv3 F.opcode [] F.payload (Or.inl rfl)
    simp only [reduceIte] at hb
    unfold Frame.to_streamdata
    rw [hme, hb]
    refine ⟨_, rfl, ?_, ?_, ?_⟩
    · intro h125
      rw [if_pos h125, if_pos h125]
      refine ⟨by simp only [List.getD_cons_succ, List.getD_cons_zero]; omega, ?_⟩
      simp [hme]
      omega
    · intro h126 h65535
      rw [if_neg (by omega), if_pos h65535, if_neg (by omega), if_pos h65535]
      refine ⟨by simp only [List.getD_cons_succ, List.getD_cons_zero]; try omega, ?_, ?_⟩
      · simp only [List.drop_succ_cons, List.drop_zero,
          List.take_left' (toBE_length 2 F.payload.length)]
        exact fromBE_toBE 2 F.payload.length (by norm_num; try omega)
      · simp [hme, toBE_length]
        omega
    · intro h65536
      rw [if_neg (by omega), if_neg (by omega), if_neg (by omega), if_neg (by omega)]
      refine ⟨by simp only [List.getD_cons_succ, List.getD_cons_zero]; try omega, ?_, ?_⟩
      · simp only [List.drop_succ_cons, List.drop_zero,
          List.take_left' (toBE_length 8 F.payload.length)]
        exact fromBE_toBE 8 F.payload.length (by norm_num; try omega)
      · simp [hme, toBE_length]
        omega
  · have hmne : m ≠ [] := by
      intro h
      rw [h] at hmlen
      simp at hmlen
    have hme : maskOrEmpty F.mask = m := by rw [hm]; rfl
    have hb := build_eq F.fin F.rsv1 F.rsv2 F.rsv3 F.opcode m F.payload (Or.inr hmlen)
    rw [if_neg hmne, if_neg hmne] at hb
    unfold Frame.to_streamdata
    rw [hme, hb]
    refine ⟨_, rfl, ?_, ?_, ?_⟩
    · intro h125
      rw [if_pos h125, if_pos h125]
      refine ⟨by simp only [List.getD_cons_succ, List.getD_cons_zero]; omega, ?_⟩
      simp [hme, masking_transform_length]
      omega
    · intro h126 h65535
      rw [if_neg (by omega), if_pos h65535, if_neg (by omega), if_pos h65535]
      refine ⟨by simp only [List.getD_cons_succ, List.getD_cons_zero]; try omega, ?_, ?_⟩
      · simp only [List.drop_succ_cons, List.drop_zero,
          List.take_left' (toBE_length 2 F.payload.length)]
        exact fromBE_toBE 2 F.payload.length (by norm_num; try omega)
      · simp [hme, toBE_length, masking_transform_length]
        omega
    · intro h65536
      rw [if_neg (by omega), if_neg (by omega), if_neg (by omega), if_neg (by omega)]
      refine ⟨by simp only [List.getD_cons_succ, List.getD_cons_zero]; try omega, ?_, ?_⟩
      · simp only [List.drop_succ_cons, List.drop_zero,
          List.take_left' (toBE_length 8 F.payload.length)]
        exact fromBE_toBE 8 F.payload.length (by norm_num; try omega)
      · simp [hme, toBE_length, masking_transform_length]
        omega

/-- Witness for C4 at an unmasked frame with a 3-byte payload. -/
theorem encoder_minimal_length_witness :
    (({ payload := [1, 2, 3] } : Frame).mask = none ∨
        ∃ m, ({ payload := [1, 2, 3] } : Frame).mask = some m ∧ m.length = 4) ∧
      ∃ B, ({ payload := [1, 2, 3] } : Frame).to_streamdata = .ok B ∧
        (([1, 2, 3] : Bytes).length ≤ 125 →
            B.getD 1 0 % 128 = ([1, 2, 3] : Bytes).length ∧
            B.length = 2 + (maskOrEmpty ({ payload := [1, 2, 3] } : Frame).mask).length +
              ([1, 2, 3] : Bytes).length) := by
  refine ⟨Or.inl rfl, ?_⟩
  obtain ⟨B, h1, h2, _, _⟩ :=
    encoder_minimal_length { payload := [1, 2, 3] } (Or.inl rfl) (by norm_num)
  exact ⟨B, h1, h2⟩

/-- C5 counterexample: a frame whose mask is the empty byte string — a
present mask whose length is 0, not 4 — encodes successfully instead of
failing with a length violation: the empty mask is treated as absent. -/
theorem empty_mask_encodes_ok :
    ([] : Bytes).length ≠ 4 ∧
      Frame.to_streamdata { payload := [1, 2], mask := some [] } = .ok [129, 2, 1, 2] := by
  constructor
  · decide
  · rfl

/-- C5 amended: for every frame whose mask is present, non-empty and not
exactly 4 bytes long, both `to_streamdata` and `masked_payload` fail with
`LengthViolation` and emit no bytes; an empty present mask is instead
treated as an absent mask; frame construction itself never fails (the
`Frame` record carries any mask value). -/
theorem mask_length_violation (f : Frame) (m : Bytes) (hm : f.mask = some m)
    (hne : m ≠ []) (hlen : m.length ≠ 4) :
    f.to_streamdata = .error .LengthViolation ∧
      f.masked_payload = .error .LengthViolation := by
  constructor
  · unfold Frame.to_streamdata build
    rw [hm]
    rw [if_pos ⟨by simpa [maskOrEmpty] using hne, by simpa [maskOrEmpty] using hlen⟩]
  · unfold Frame.masked_payload masking
    rw [hm]
    rw [if_neg (by simpa [maskOrEmpty] using hlen), if_neg (by simpa [maskOrEmpty] using hne)]

/-- Witness for C5 (amended) at a frame with the 3-byte mask `[9, 9, 9]`. -/
theorem mask_length_violation_witness :
    (({ payload := [1, 2], mask := some [9, 9, 9] } : Frame).mask = some [9, 9, 9] ∧
        ([9, 9, 9] : Bytes) ≠ [] ∧ ([9, 9, 9] : Bytes).length ≠ 4) ∧
      ({ payload := [1, 2], mask := some [9, 9, 9] } : Frame).to_streamdata =
          .error .LengthViolation ∧
        ({ payload := [1, 2], mask := some [9, 9, 9] } : Frame).masked_payload =
          .error .LengthViolation :=
  ⟨⟨rfl, by decide, by decide⟩,
    mask_length_violation { payload := [1, 2], mask := some [9, 9, 9] } [9, 9, 9]
      rfl (by decide) (by decide)⟩

/-! Auxiliary lemmas for the header block codec: how the two-byte split
interacts with joins, and how `bytes.strip` interacts with the CRLF
terminator. -/

/-- C8 counterexample: a header whose value contains the byte pair `": "`
does not survive the round trip — the line `B: : C` splits into three
parts, so the `k, v` unpacking in `from_streamdata` raises instead of
reproducing the header. -/
theorem header_roundtrip_fails :
    HeaderObj.from_streamdata
        (HeaderObj.to_streamdata { l1 := [71], items := [([66], [58, 32, 67])] }) =
      .error () := by
  rfl

theorem splitSepCore_eq_self (a b : Nat) (l : Bytes)
    (h : l.Chain' (fun u w => ¬(u = a ∧ w = b))) :
    splitSepCore a b l = (l, []) := by
  induction l with
  | nil => rfl
  | cons x t ih =>
      cases t with
      | nil => rfl
      | cons y rest =>
          rw [List.chain'_cons] at h
          unfold splitSepCore
          rw [if_neg h.1, ih h.2]

theorem splitSepCore_append (a b : Nat) (hab : a ≠ b) (x y : Bytes)
    (hx : x.Chain' (fun u w => ¬(u = a ∧ w = b))) :
    splitSepCore a b (x ++ a :: b :: y) =
      (x, (splitSepCore a b y).1 :: (splitSepCore a b y).2) := by
  induction x with
  | nil =>
      rw [List.nil_append]
      simp only [splitSepCore]
      rw [if_pos ⟨trivial, trivial⟩]
  | cons x0 t ih =>
      cases t with
      | nil =>
          rw [List.cons_append, List.nil_append]
          simp only [splitSepCore]
          rw [if_neg (fun hc => hab hc.2), if_pos ⟨trivial, trivial⟩]
      | cons x1 t2 =>
          rw [List.chain'_cons] at hx
          have ih2 := ih hx.2
          rw [List.cons_append] at ih2
          rw [List.cons_append, List.cons_append]
          simp only [splitSepCore]
          rw [if_neg hx.1, ih2]

theorem splitSep_joinSep (a b : Nat) (hab : a ≠ b) (ls : List Bytes)
    (hne : ls ≠ [])
    (h : ∀ l ∈ ls, l.Chain' (fun u w => ¬(u = a ∧ w = b))) :
    splitSep a b (joinSep [a, b] ls) = ls := by
  induction ls with
  | nil => exact absurd rfl hne
  | cons l rest ih =>
      cases rest with
      | nil =>
          show splitSep a b l = [l]
          unfold splitSep
          rw [splitSepCore_eq_self a b l (h l (by simp))]
      | cons l2 rest2 =>
          have hstep : joinSep [a, b] (l :: l2 :: rest2) =
              l ++ a :: b :: joinSep [a, b] (l2 :: rest2) := by
            show l ++ [a, b] ++ joinSep [a, b] (l2 :: rest2) = _
            simp
          rw [hstep]
          unfold splitSep
          rw [splitSepCore_append a b hab l _ (h l (by simp))]
          have ih2 := ih (by simp) (fun u hu => h u (by simp [hu]))
          unfold splitSep at ih2
          rw [ih2]

theorem head_false_of_dropWhile_eq (p : Nat → Bool) (a : Nat) (t : Bytes)
    (h : (a :: t).dropWhile p = a :: t) : p a = false := by
  cases hpa : p a
  · rfl
  · rw [List.dropWhile_cons, if_pos hpa] at h
    have hlen := congrArg List.length h
    have hle : (t.dropWhile p).length ≤ t.length := (List.dropWhile_suffix p).length_le
    simp at hlen
    omega

theorem dropWhile_append_left (p : Nat → Bool) (l r : Bytes)
    (h : ∀ x ∈ l, p x = true) : (l ++ r).dropWhile p = r.dropWhile p := by
  induction l with
  | nil => rfl
  | cons a t ih =>
      rw [List.cons_append, List.dropWhile_cons, if_pos (h a (by simp))]
      exact ih (fun x hx => h x (by simp [hx]))

theorem dropWhile_append_eq_self (l r : Bytes)
    (hl : l.dropWhile isSpaceByte = l) (hne : l ≠ []) :
    (l ++ r).dropWhile isSpaceByte = l ++ r := by
  cases l with
  | nil => exact absurd rfl hne
  | cons a t =>
      have ha := head_false_of_dropWhile_eq isSpaceByte a t hl
      rw [List.cons_append, List.dropWhile_cons, if_neg (by simp [ha])]

theorem rdropWhile_self_of_getLast (l : Bytes) (c : Nat)
    (hc : l.getLast? = some c) (hns : isSpaceByte c = false) :
    l.reverse.dropWhile isSpaceByte = l.reverse := by
  cases hrev : l.reverse with
  | nil => rfl
  | cons a t =>
      have hac : a = c := by
        have h2 : l.getLast? = some a := by
          rw [← List.head?_reverse, hrev]
          rfl
        rw [hc] at h2
        exact (Option.some.inj h2).symm
      subst hac
      rw [List.dropWhile_cons, if_neg (by simp [hns])]

theorem strip_of_block (D ws : Bytes) (hws : ∀ x ∈ ws, isSpaceByte x = true)
    (hne : D ≠ []) (hleft : D.dropWhile isSpaceByte = D)
    (hright : D.reverse.dropWhile isSpaceByte = D.reverse) :
    stripBytes (D ++ ws) = D := by
  unfold stripBytes
  rw [dropWhile_append_eq_self D ws hleft hne, List.reverse_append,
    dropWhile_append_left isSpaceByte ws.reverse D.reverse
      (fun x hx => hws x (by simpa using hx)),
    hright, List.reverse_reverse]

theorem strip_components (l : Bytes) (h : stripBytes l = l) :
    l.dropWhile isSpaceByte = l ∧ l.reverse.dropWhile isSpaceByte = l.reverse := by
  unfold stripBytes at h
  have hlenh := congrArg List.length h
  have h1 : (l.dropWhile isSpaceByte).length ≤ l.length :=
    (List.dropWhile_suffix _).length_le
  have h2 : ((l.dropWhile isSpaceByte).reverse.dropWhile isSpaceByte).length ≤
      (l.dropWhile isSpaceByte).length := by
    calc ((l.dropWhile isSpaceByte).reverse.dropWhile isSpaceByte).length
        ≤ (l.dropWhile isSpaceByte).reverse.length := (List.dropWhile_suffix _).length_le
      _ = (l.dropWhile isSpaceByte).length := List.length_reverse _
  simp only [List.length_reverse] at hlenh
  have hdl : (l.dropWhile isSpaceByte).length = l.length := by omega
  have hdeq : l.dropWhile isSpaceByte = l :=
    List.IsSuffix.eq_of_length (List.dropWhile_suffix _) hdl
  refine ⟨hdeq, ?_⟩
  rw [hdeq] at h
  have h3 := congrArg List.reverse h
  rw [List.reverse_reverse] at h3
  exact h3

theorem joinSep_getLast (sep : Bytes) (ls : List Bytes) (last : Bytes)
    (hl : ls.getLast? = some last) (hne2 : last ≠ []) :
    (joinSep sep ls).getLast? = last.getLast? := by
  induction ls with
  | nil => simp at hl
  | cons x rest ih =>
      cases rest with
      | nil =>
          simp at hl
          subst hl
          rfl
      | cons y rest2 =>
          rw [List.getLast?_cons_cons] at hl
          have ihl := ih hl
          have hjoin_ne : joinSep sep (y :: rest2) ≠ [] := by
            intro hz
            rw [hz] at ihl
            cases hlast : last.getLast? with
            | none => exact hne2 (List.getLast?_eq_none_iff.mp hlast)
            | some c =>
                rw [hlast] at ihl
                simp at ihl
          show ((x ++ sep) ++ joinSep sep (y :: rest2)).getLast? = _
          rw [List.getLast?_append_of_ne_nil _ hjoin_ne]
          exact ihl

theorem parseHeaderLine_eq (acc : List (Bytes × Bytes)) (q : Bytes × Bytes)
    (hstrip : stripBytes q.1 = q.1)
    (hk : q.1.Chain' (fun u w => ¬(u = 58 ∧ w = 32)))
    (hv : q.2.Chain' (fun u w => ¬(u = 58 ∧ w = 32)))
    (hdisj : ∀ r ∈ acc, r.1 ≠ q.1) :
    parseHeaderLine acc (q.1 ++ [58, 32] ++ q.2) = Except.ok (acc ++ [q]) := by
  have hsplit : splitSep 58 32 (q.1 ++ [58, 32] ++ q.2) = [q.1, q.2] := by
    unfold splitSep
    have h1 : q.1 ++ [58, 32] ++ q.2 = q.1 ++ 58 :: 32 :: q.2 := by simp
    rw [h1, splitSepCore_append 58 32 (by omega) q.1 q.2 hk,
      splitSepCore_eq_self 58 32 q.2 hv]
  unfold parseHeaderLine
  rw [hsplit]
  show Except.ok (setItem acc (stripBytes q.1) q.2) = _
  rw [hstrip]
  unfold setItem
  have hany : (acc.any fun r => r.1 = q.1) = false := by
    rw [List.any_eq_false]
    intro r hr
    simp
    exact hdisj r hr
  rw [if_neg (by simp [hany])]

theorem foldParse (items : List (Bytes × Bytes)) :
    ∀ acc : List (Bytes × Bytes),
      (∀ q ∈ items, stripBytes q.1 = q.1 ∧
        q.1.Chain' (fun u w => ¬(u = 58 ∧ w = 32)) ∧
        q.2.Chain' (fun u w => ¬(u = 58 ∧ w = 32))) →
      (∀ q ∈ items, ∀ r ∈ acc, r.1 ≠ q.1) →
      (items.map Prod.fst).Nodup →
      (items.map (fun q => q.1 ++ [58, 32] ++ q.2)).foldlM parseHeaderLine acc =
        Except.ok (acc ++ items) := by
  induction items with
  | nil =>
      intro acc _ _ _
      rw [List.map_nil, List.append_nil]
      rfl
  | cons q rest ih =>
      intro acc hsafe hdisj hnodup
      have hnd : q.1 ∉ rest.map Prod.fst ∧ (rest.map Prod.fst).Nodup := by
        rw [List.map_cons, List.nodup_cons] at hnodup
        exact hnodup
      have hq := hsafe q (by simp)
      simp only [List.map_cons, List.foldlM_cons]
      rw [parseHeaderLine_eq acc q hq.1 hq.2.1 hq.2.2 (hdisj q (by simp))]
      have hbind : ∀ (x : List (Bytes × Bytes))
          (g : List (Bytes × Bytes) → Except Unit (List (Bytes × Bytes))),
          ((Except.ok x : Except Unit (List (Bytes × Bytes))) >>= g) = g x :=
        fun x g => rfl
      rw [hbind]
      have hrest := ih (acc ++ [q])
        (fun r hr => hsafe r (by simp [hr]))
        (fun r hr s hs => by
          rcases List.mem_append.mp hs with hs2 | hs2
          · exact hdisj r (by simp [hr]) s hs2
          · have hsq : s = q := by simpa using hs2
            subst hsq
            intro he
            apply hnd.1
            rw [he]
            exact List.mem_map_of_mem Prod.fst hr)
        hnd.2
      have hap : (acc ++ [q]) ++ rest = acc ++ q :: rest := by simp
      rw [hap] at hrest
      exact hrest

theorem noCRLF_line (k v : Bytes)
    (hk : k.Chain' (fun u w => ¬(u = 13 ∧ w = 10)))
    (hv : v.Chain' (fun u w => ¬(u = 13 ∧ w = 10))) :
    (k ++ [58, 32] ++ v).Chain' (fun u w => ¬(u = 13 ∧ w = 10)) := by
  rw [List.append_assoc, List.chain'_append]
  refine ⟨hk, ?_, ?_⟩
  · rw [List.chain'_append]
    refine ⟨List.chain'_cons.mpr ⟨by omega, List.chain'_singleton _⟩, hv, ?_⟩
    intro p hp q hq
    simp at hp
    rintro ⟨h1, h2⟩
    omega
  · intro p hp q hq
    simp at hq
    rintro ⟨h1, h2⟩
    omega

/-- C8 amended: serializing a `HeaderObj` and parsing the block back
reproduces it — the same first line and the same names mapped to the same
values in the same order — provided the header is well-formed for this
codec: the first line is non-empty, carries no surrounding ASCII
whitespace and no CRLF pair; every name equals its own strip and names
and values contain no CRLF pair and no `": "` pair (one such pair would
derail the single `line.split(b": ")`); names are distinct (the container
is a dict); and the last value is non-empty without trailing whitespace
(the block-level `strip` would otherwise eat into it).  Outside these
conditions the round trip can fail, as the counterexample shows. -/
theorem header_roundtrip_amended (h : HeaderObj)
    (hl1ne : h.l1 ≠ [])
    (hl1strip : stripBytes h.l1 = h.l1)
    (hl1safe : h.l1.Chain' (fun u w => ¬(u = 13 ∧ w = 10)))
    (hsafe : ∀ q ∈ h.items, stripBytes q.1 = q.1 ∧
      q.1.Chain' (fun u w => ¬(u = 13 ∧ w = 10)) ∧
      q.2.Chain' (fun u w => ¬(u = 13 ∧ w = 10)) ∧
      q.1.Chain' (fun u w => ¬(u = 58 ∧ w = 32)) ∧
      q.2.Chain' (fun u w => ¬(u = 58 ∧ w = 32)))
    (hnodup : (h.items.map Prod.fst).Nodup)
    (hlastv : ∀ q ∈ h.items.getLast?, q.2 ≠ [] ∧
      q.2.reverse.dropWhile isSpaceByte = q.2.reverse) :
    HeaderObj.from_streamdata (HeaderObj.to_streamdata h) = .ok h := by
  obtain ⟨l1, items⟩ := h
  have hl1c := strip_components l1 hl1strip
  cases items with
  | nil =>
      have ht : HeaderObj.to_streamdata ⟨l1, []⟩ = l1 ++ [13, 10, 13, 10, 13, 10] := by
        show ((l1 ++ [13, 10]) ++ joinSep [13, 10] []) ++ [13, 10, 13, 10] = _
        simp [joinSep]
      have hstrip2 : stripBytes (HeaderObj.to_streamdata ⟨l1, []⟩) = l1 := by
        rw [ht]
        exact strip_of_block l1 [13, 10, 13, 10, 13, 10] (by decide)
          hl1ne hl1c.1 hl1c.2
      have hsplit2 : splitSep 13 10 l1 = [l1] := by
        unfold splitSep
        rw [splitSepCore_eq_self 13 10 l1 hl1safe]
      unfold HeaderObj.from_streamdata
      rw [hstrip2, hsplit2]
      rfl
  | cons q0 rest0 =>
      cases hqL : (q0 :: rest0).getLast? with
      | none => exact absurd (List.getLast?_eq_none_iff.mp hqL) (by simp)
      | some qL =>
          have hlv := hlastv qL (by simp [hqL])
          have hv_ne : qL.2 ≠ [] := hlv.1
          obtain ⟨c, hc, hcs⟩ : ∃ c, qL.2.getLast? = some c ∧ isSpaceByte c = false := by
            cases hrev : qL.2.reverse with
            | nil =>
                have : qL.2 = [] := by simpa using hrev
                exact absurd this hv_ne
            | cons c t =>
                refine ⟨c, ?_, ?_⟩
                · rw [← List.head?_reverse, hrev]
                  rfl
                · have h2 := hlv.2
                  rw [hrev] at h2
                  exact head_false_of_dropWhile_eq isSpaceByte c t h2
          have hlines_last :
              ((q0 :: rest0).map (fun q => q.1 ++ [58, 32] ++ q.2)).getLast?
                = some (qL.1 ++ [58, 32] ++ qL.2) := by
            rw [List.getLast?_map, hqL]
            rfl
          have hD1 : (joinSep [13, 10]
              (l1 :: (q0.1 ++ [58, 32] ++ q0.2) ::
                rest0.map (fun q => q.1 ++ [58, 32] ++ q.2))).getLast?
              = (qL.1 ++ [58, 32] ++ qL.2).getLast? := by
            simp only [List.map_cons] at hlines_last
            apply joinSep_getLast
            · rw [List.getLast?_cons_cons]
              exact hlines_last
            · simp
          have hD2 : (qL.1 ++ [58, 32] ++ qL.2).getLast? = some c := by
            rw [List.getLast?_append_of_ne_nil _ hv_ne]
            exact hc
          have hDlast := hD1.trans hD2
          have hDne : joinSep [13, 10]
              (l1 :: (q0.1 ++ [58, 32] ++ q0.2) ::
                rest0.map (fun q => q.1 ++ [58, 32] ++ q.2)) ≠ [] := by
            show l1 ++ [13, 10] ++ joinSep [13, 10] _ ≠ []
            simp [hl1ne]
          have hDleft : (joinSep [13, 10]
              (l1 :: (q0.1 ++ [58, 32] ++ q0.2) ::
                rest0.map (fun q => q.1 ++ [58, 32] ++ q.2))).dropWhile isSpaceByte
              = joinSep [13, 10]
                (l1 :: (q0.1 ++ [58, 32] ++ q0.2) ::
                  rest0.map (fun q => q.1 ++ [58, 32] ++ q.2)) := by
            show ((l1 ++ [13, 10]) ++ joinSep [13, 10]
                ((q0.1 ++ [58, 32] ++ q0.2) ::
                  rest0.map (fun q : Bytes × Bytes => q.1 ++ [58, 32] ++ q.2))).dropWhile
                isSpaceByte =
              (l1 ++ [13, 10]) ++ joinSep [13, 10]
                ((q0.1 ++ [58, 32] ++ q0.2) ::
                  rest0.map (fun q : Bytes × Bytes => q.1 ++ [58, 32] ++ q.2))
            rw [List.append_assoc]
            exact dropWhile_append_eq_self l1 _ hl1c.1 hl1ne
          have hDright := rdropWhile_self_of_getLast _ c hDlast hcs
          have hD : stripBytes (HeaderObj.to_streamdata ⟨l1, q0 :: rest0⟩) =
              joinSep [13, 10]
                (l1 :: (q0.1 ++ [58, 32] ++ q0.2) ::
                  rest0.map (fun q => q.1 ++ [58, 32] ++ q.2)) := by
            have ht : HeaderObj.to_streamdata ⟨l1, q0 :: rest0⟩ =
                joinSep [13, 10]
                  (l1 :: (q0.1 ++ [58, 32] ++ q0.2) ::
                    rest0.map (fun q => q.1 ++ [58, 32] ++ q.2)) ++
                  [13, 10, 13, 10] := by
              show (l1 ++ [13, 10] ++
                  joinSep [13, 10] ((q0 :: rest0).map (fun q => q.1 ++ [58, 32] ++ q.2)))
                  ++ [13, 10, 13, 10] = _
              rw [List.map_cons]
              rfl
            rw [ht]
            exact strip_of_block _ [13, 10, 13, 10] (by decide)
              hDne hDleft hDright
          have hallsafe : ∀ l ∈ l1 :: (q0.1 ++ [58, 32] ++ q0.2) ::
              rest0.map (fun q => q.1 ++ [58, 32] ++ q.2),
              l.Chain' (fun u w => ¬(u = 13 ∧ w = 10)) := by
            intro l hl
            rcases List.mem_cons.mp hl with rfl | hl2
            · exact hl1safe
            · rcases List.mem_cons.mp hl2 with rfl | hl3
              · exact noCRLF_line q0.1 q0.2 (hsafe q0 (by simp)).2.1
                  (hsafe q0 (by simp)).2.2.1
              · rcases List.mem_map.mp hl3 with ⟨q, hq, rfl⟩
                exact noCRLF_line q.1 q.2 (hsafe q (by simp [hq])).2.1
                  (hsafe q (by simp [hq])).2.2.1
          have hsplit : splitSep 13 10 (joinSep [13, 10]
              (l1 :: (q0.1 ++ [58, 32] ++ q0.2) ::
                rest0.map (fun q => q.1 ++ [58, 32] ++ q.2))) =
              l1 :: (q0.1 ++ [58, 32] ++ q0.2) ::
                rest0.map (fun q => q.1 ++ [58, 32] ++ q.2) :=
            splitSep_joinSep 13 10 (by omega) _ (by simp) hallsafe
          have hfold := foldParse (q0 :: rest0) []
            (by
              intro q hq
              exact ⟨(hsafe q hq).1, (hsafe q hq).2.2.2.1, (hsafe q hq).2.2.2.2⟩)
            (by simp) hnodup
          rw [List.map_cons] at hfold
          unfold HeaderObj.from_streamdata
          rw [hD, hsplit]
          show ((do
              let its ← ((q0.1 ++ [58, 32] ++ q0.2) ::
                rest0.map (fun q : Bytes × Bytes => q.1 ++ [58, 32] ++ q.2)).foldlM
                parseHeaderLine []
              Except.ok { l1 := l1, items := its }) : Except Unit HeaderObj) =
            Except.ok ⟨l1, q0 :: rest0⟩
          rw [hfold]
          rfl

/-- Witness for C8 (amended) at the header with first line `G` and the
single pair `A: B`. -/
theorem header_roundtrip_amended_witness :
    HeaderObj.from_streamdata
        (HeaderObj.to_streamdata { l1 := [71], items := [([65], [66])] }) =
      .ok { l1 := [71], items := [([65], [66])] } :=
  header_roundtrip_amended { l1 := [71], items := [([65], [66])] }
    (by decide) rfl (List.chain'_singleton 71)
    (by
      intro q hq
      simp at hq
      subst hq
      exact ⟨rfl, List.chain'_singleton _, List.chain'_singleton _,
        List.chain'_singleton _, List.chain'_singleton _⟩)
    (by simp)
    (by
      intro q hq
      simp at hq
      subst hq
      exact ⟨by decide, rfl⟩)

end Wsdatautil
